import Mathlib

/-!
Shallow embedding of the Markdown section parser and response validator of
the health-demo repository (src/utils/parser.ts, src/components/UI.tsx,
src/App.tsx). Strings are modelled as lists of characters; the JavaScript
standard-library functions used by the code (String.prototype.trim,
String.prototype.toLowerCase on ASCII, String.prototype.split with the
heading regex, String.prototype.replace with the fence regex, JSON.parse)
are modelled explicitly below.
-/

namespace YTO

/-- The character class matched by the regex escape used in the split
pattern and removed by String.prototype.trim: ECMAScript WhiteSpace
together with LineTerminator code points. -/
def isJsWhitespace (c : Char) : Bool :=
  c == ' ' || c == '\t' || c == '\n' || c == '\r' || c == '\x0b' || c == '\x0c' ||
  c.toNat == 0xA0 || c.toNat == 0x1680 ||
  (0x2000 ≤ c.toNat && c.toNat ≤ 0x200A) ||
  c.toNat == 0x2028 || c.toNat == 0x2029 || c.toNat == 0x202F ||
  c.toNat == 0x205F || c.toNat == 0x3000 || c.toNat == 0xFEFF

/-- s.trim over character lists: drop JS whitespace from both ends. -/
def trimList (s : List Char) : List Char :=
  ((s.dropWhile isJsWhitespace).reverse.dropWhile isJsWhitespace).reverse

/-- result.replace of the carriage-return pattern (a CR with an optional
following LF) with a single LF, scanning left to right. -/
def normalizeNewlines : List Char → List Char
  | [] => []
  | '\r' :: '\n' :: rest => '\n' :: normalizeNewlines rest
  | '\r' :: rest => '\n' :: normalizeNewlines rest
  | c :: rest => c :: normalizeNewlines rest

/-- Does the text begin with three hash characters followed by a JS
whitespace character?  This is the lookahead of the split regex.  (The
default character supplied to headD is not whitespace, so a text of at
most three characters never matches.) -/
def isSplitAt (s : List Char) : Bool :=
  decide (s.take 3 = ['#', '#', '#']) && isJsWhitespace ((s.drop 3).headD 'x')

/-- Attach a character to the front of the first chunk. -/
def consHead (c : Char) : List (List Char) → List (List Char)
  | [] => [[c]]
  | p :: ps => (c :: p) :: ps

/-- text.split at each newline that is immediately followed by "###" and
a whitespace character: the newline is consumed as the separator and a
new chunk starts at the heading; every other character stays in the
current chunk. -/
def splitParts : List Char → List (List Char)
  | [] => [[]]
  | c :: rest =>
    if c = '\n' ∧ isSplitAt rest = true then [] :: splitParts rest
    else consHead c (splitParts rest)

/-- A parsed section, from types.ts: a title and a content string. -/
structure Section where
  title : List Char
  content : List Char
deriving DecidableEq, Repr

/-- A decimal digit character. -/
def digitChar (d : Nat) : Char := Char.ofNat (48 + d)

/-- Fuelled decimal rendering loop (most significant digit first). -/
def natToCharsGo : Nat → Nat → List Char → List Char
  | 0, _, acc => acc
  | f+1, n, acc =>
    if n < 10 then digitChar n :: acc
    else natToCharsGo f (n / 10) (digitChar (n % 10) :: acc)

/-- Decimal rendering of a natural number, as produced by the template
literal interpolation of idx + 1. -/
def natToChars (n : Nat) : List Char := natToCharsGo (n + 1) n []

/-- The positional placeholder title substituted for an empty heading. -/
def sectionPlaceholder (n : Nat) : List Char := "Section ".toList ++ natToChars n

/-- chunk.substring(4, nl), nl being the index of the first newline (or
the chunk length if there is none), applied after dropping the marker. -/
def beforeNl (l : List Char) : List Char := l.takeWhile (fun c => c != '\n')

/-- chunk.substring(nl + 1) when the chunk contains a newline. -/
def afterNl (l : List Char) : Option (List Char) :=
  match l.dropWhile (fun c => c != '\n') with
  | [] => none
  | _ :: rest => some rest

/-- The content extracted for a heading chunk: the trimmed text after the
first newline, or empty when there is no newline. -/
def headingContent (chunk : List Char) : List Char :=
  match afterNl chunk with
  | some r => trimList r
  | none => []

/-- One iteration of the parts.forEach body of parseSections: the section
pushed for the chunk at position idx, or none for a blank non-heading
chunk. -/
def mkSection (idx : Nat) (chunk : List Char) : Option Section :=
  if chunk.take 4 = "### ".toList then
    let title := trimList (beforeNl (chunk.drop 4))
    some ⟨if title = [] then sectionPlaceholder (idx + 1) else title,
          headingContent chunk⟩
  else if trimList chunk = [] then none
  else some ⟨"Overview".toList, trimList chunk⟩

/-- parts.forEach with its running index, collecting the pushed sections. -/
def buildSections : Nat → List (List Char) → List Section
  | _, [] => []
  | idx, chunk :: rest =>
    match mkSection idx chunk with
    | some sec => sec :: buildSections (idx + 1) rest
    | none => buildSections (idx + 1) rest

/-- The final filter of parseSections: keep a section whose title or
content is a non-empty string (string truthiness). -/
def keepSection (s : Section) : Bool := !(s.title.isEmpty) || !(s.content.isEmpty)

/-- parseSections from src/utils/parser.ts. -/
def parseSections (result : List Char) : List Section :=
  if trimList result = [] then []
  else (buildSections 0 (splitParts (normalizeNewlines result))).filter keepSection

/-- ASCII lowercasing, the fragment of String.prototype.toLowerCase
exercised by the section titles compared here. -/
def toLowerList (l : List Char) : List Char := l.map Char.toLower

/-- The comparison key used by the checklist: s.title.trim().toLowerCase(). -/
def titleKey (s : Section) : List Char := toLowerList (trimList s.title)

/-- The checklist computation of App.tsx with the required names passed as
a parameter: found = sections.map(titleKey); each required name is paired
with found.includes(name.toLowerCase()). -/
def checkRequiredSections (sections : List Section) (required : List (List Char)) :
    List (List Char × Bool) :=
  let found := sections.map titleKey
  required.map (fun name => (name, found.contains (toLowerList name)))

end YTO

namespace YTO

/-- Drop a single optional leading newline (the optional newline of the
first fence alternative). -/
def dropOptNl : List Char → List Char
  | '\n' :: r => r
  | r => r

/-- Fuelled scan of content.replace of the fence regex with the empty
string: at each position, first try to remove a json fence marker with an
optional following newline, then a plain fence marker with an optional
preceding newline; otherwise keep the character.  The replacement is
global, exactly as in the source. -/
def stripFencesGo : Nat → List Char → List Char
  | 0, s => s
  | fuel+1, s =>
    match s with
    | [] => []
    | c :: rest =>
      if s.take 7 = "```json".toList then stripFencesGo fuel (dropOptNl (s.drop 7))
      else if s.take 4 = "\n```".toList then stripFencesGo fuel (s.drop 4)
      else if s.take 3 = "```".toList then stripFencesGo fuel (s.drop 3)
      else c :: stripFencesGo fuel rest

/-- content.replace of the fence regex with the empty string.  The fuel
equals the input length; the scan consumes at least one character per
step, so the fuel never runs out. -/
def stripFences (s : List Char) : List Char := stripFencesGo s.length s

/-- The cleaned content of the metadata check: fences removed, then
trimmed. -/
def cleanContent (content : List Char) : List Char := trimList (stripFences content)

/-- Index of the first occurrence of a character (String.prototype.indexOf). -/
def firstIdx (c : Char) : List Char → Option Nat
  | [] => none
  | d :: rest =>
    if d = c then some 0
    else match firstIdx c rest with
      | some i => some (i + 1)
      | none => none

/-- Index of the last occurrence of a character (String.prototype.lastIndexOf). -/
def lastIdx (c : Char) (l : List Char) : Option Nat :=
  match firstIdx c l.reverse with
  | some i => some (l.length - 1 - i)
  | none => none

/-- The brace-delimited substring searched for the JSON object:
clean.slice(jsonStart, jsonEnd + 1), or none when either brace is
absent. -/
def metaJsonSlice (content : List Char) : Option (List Char) :=
  match firstIdx '{' (cleanContent content), lastIdx '}' (cleanContent content) with
  | some st, some en => some (((cleanContent content).drop st).take (en + 1 - st))
  | _, _ => none

/-- A JSON value as produced by JSON.parse.  Numbers are kept as their
source lexemes (the claims below never compare numeric values), and
object fields are kept in source order. -/
inductive Json where
  | str (s : List Char)
  | num (lexeme : List Char)
  | bool (b : Bool)
  | null
  | arr (elems : List Json)
  | obj (fields : List (List Char × Json))
deriving Repr, BEq

/-- JSON insignificant whitespace. -/
def isJsonWs (c : Char) : Bool := c == ' ' || c == '\t' || c == '\n' || c == '\r'

def skipWs (s : List Char) : List Char := s.dropWhile isJsonWs

def isDigitChar (c : Char) : Bool := 48 ≤ c.toNat && c.toNat ≤ 57

def hexVal (c : Char) : Option Nat :=
  if 48 ≤ c.toNat ∧ c.toNat ≤ 57 then some (c.toNat - 48)
  else if 65 ≤ c.toNat ∧ c.toNat ≤ 70 then some (c.toNat - 55)
  else if 97 ≤ c.toNat ∧ c.toNat ≤ 102 then some (c.toNat - 87)
  else none

/-- Fuelled scan of the remainder of a JSON string literal, after the
opening quote.  Unicode escapes are mapped through Char.ofNat, so
surrogate-pair recombination is outside the model; the claims below only
exercise ASCII strings. -/
def parseStringRest : Nat → List Char → Option (List Char × List Char)
  | 0, _ => none
  | fuel+1, s =>
    match s with
    | [] => none
    | '"' :: r => some ([], r)
    | '\\' :: r =>
      match r with
      | '"' :: r' => (parseStringRest fuel r').map (fun p => ('"' :: p.1, p.2))
      | '\\' :: r' => (parseStringRest fuel r').map (fun p => ('\\' :: p.1, p.2))
      | '/' :: r' => (parseStringRest fuel r').map (fun p => ('/' :: p.1, p.2))
      | 'b' :: r' => (parseStringRest fuel r').map (fun p => ('\x08' :: p.1, p.2))
      | 'f' :: r' => (parseStringRest fuel r').map (fun p => ('\x0c' :: p.1, p.2))
      | 'n' :: r' => (parseStringRest fuel r').map (fun p => ('\n' :: p.1, p.2))
      | 'r' :: r' => (parseStringRest fuel r').map (fun p => ('\r' :: p.1, p.2))
      | 't' :: r' => (parseStringRest fuel r').map (fun p => ('\t' :: p.1, p.2))
      | 'u' :: a :: b :: c :: d :: r' =>
        (match hexVal a, hexVal b, hexVal c, hexVal d with
         | some x, some y, some z, some w =>
           (parseStringRest fuel r').map
             (fun p => (Char.ofNat (((x * 16 + y) * 16 + z) * 16 + w) :: p.1, p.2))
         | _, _, _, _ => none)
      | _ => none
    | c :: r =>
      if c.toNat < 32 then none
      else (parseStringRest fuel r).map (fun p => (c :: p.1, p.2))

def splitDigits (s : List Char) : List Char × List Char :=
  (s.takeWhile isDigitChar, s.dropWhile isDigitChar)

/-- The optional exponent part of a JSON number. -/
def parseExpPart (lex : List Char) (s : List Char) : Option (List Char × List Char) :=
  match s with
  | [] => some (lex, [])
  | e :: r =>
    if e = 'e' ∨ e = 'E' then
      let sg := match r with
        | '+' :: r' => (['+'], r')
        | '-' :: r' => (['-'], r')
        | _ => (([] : List Char), r)
      let ds := splitDigits sg.2
      if ds.1 = [] then none else some (lex ++ e :: (sg.1 ++ ds.1), ds.2)
    else some (lex, s)

/-- The optional fraction part of a JSON number, then the exponent. -/
def parseFracPart (lex : List Char) (s : List Char) : Option (List Char × List Char) :=
  match s with
  | '.' :: r =>
    let ds := splitDigits r
    if ds.1 = [] then none else parseExpPart (lex ++ '.' :: ds.1) ds.2
  | _ => parseExpPart lex s

/-- A JSON number literal: optional minus, integer part with no leading
zero, optional fraction, optional exponent.  Returns the lexeme and the
rest of the input. -/
def parseNumber (s : List Char) : Option (List Char × List Char) :=
  let ne := match s with
    | '-' :: r => ((['-'] : List Char), r)
    | _ => (([] : List Char), s)
  match ne.2 with
  | [] => none
  | c :: r =>
    if c = '0' then parseFracPart (ne.1 ++ ['0']) r
    else if isDigitChar c = true then
      let ds := splitDigits r
      parseFracPart (ne.1 ++ c :: ds.1) ds.2
    else none

mutual

/-- Fuelled JSON value parser: whitespace, then an object, array, string,
literal or number. -/
def parseVal : Nat → List Char → Option (Json × List Char)
  | 0, _ => none
  | fuel+1, s =>
    match skipWs s with
    | '{' :: r =>
      (match skipWs r with
       | '}' :: r' => some (Json.obj [], r')
       | _ => (parseMembers fuel r).map (fun p => (Json.obj p.1, p.2)))
    | '[' :: r =>
      (match skipWs r with
       | ']' :: r' => some (Json.arr [], r')
       | _ => (parseElems fuel r).map (fun p => (Json.arr p.1, p.2)))
    | '"' :: r => (parseStringRest (r.length + 1) r).map (fun p => (Json.str p.1, p.2))
    | 't' :: 'r' :: 'u' :: 'e' :: r => some (Json.bool true, r)
    | 'f' :: 'a' :: 'l' :: 's' :: 'e' :: r => some (Json.bool false, r)
    | 'n' :: 'u' :: 'l' :: 'l' :: r => some (Json.null, r)
    | s' => (parseNumber s').map (fun p => (Json.num p.1, p.2))

/-- One or more comma-separated array elements followed by the closing
bracket. -/
def parseElems : Nat → List Char → Option (List Json × List Char)
  | 0, _ => none
  | fuel+1, s =>
    match parseVal fuel s with
    | none => none
    | some (v, rest) =>
      match skipWs rest with
      | ',' :: r =>
        (match parseElems fuel r with
         | none => none
         | some (vs, r') => some (v :: vs, r'))
      | ']' :: r => some ([v], r)
      | _ => none

/-- One or more comma-separated object members followed by the closing
brace. -/
def parseMembers : Nat → List Char → Option (List (List Char × Json) × List Char)
  | 0, _ => none
  | fuel+1, s =>
    match skipWs s with
    | '"' :: r =>
      (match parseStringRest (r.length + 1) r with
       | none => none
       | some (k, rest) =>
         match skipWs rest with
         | ':' :: r2 =>
           (match parseVal fuel r2 with
            | none => none
            | some (v, rest2) =>
              match skipWs rest2 with
              | ',' :: r3 =>
                (match parseMembers fuel r3 with
                 | none => none
                 | some (fs, rest3) => some ((k, v) :: fs, rest3))
              | '}' :: r3 => some ([(k, v)], r3)
              | _ => none)
         | _ => none)
    | _ => none

end

/-- A model of the JSON.parse builtin: a single JSON value surrounded by
optional whitespace, with the whole input consumed.  The fuel bound
suffices because every nesting level consumes at least one character. -/
def jsonParse (s : List Char) : Option Json :=
  match parseVal (s.length + 1) s with
  | some (v, rest) => if skipWs rest = [] then some v else none
  | none => none

/-- Membership test of the in operator on a parsed object, restricted to
keys that are not inherited properties (all six required field names
are such). -/
def hasKey (fields : List (List Char × Json)) (k : List Char) : Bool :=
  fields.any (fun p => p.1 == k)

/-- The first required field name absent from the object, in the fixed
check order. -/
def firstAbsent (fields : List (List Char × Json)) : List (List Char) → Option (List Char)
  | [] => none
  | k :: ks => if hasKey fields k then firstAbsent fields ks else some k

/-- Property read data.k: the last binding wins, as JSON.parse assigns
duplicate keys in source order. -/
def getField (fields : List (List Char × Json)) (k : List Char) : Option Json :=
  match fields.reverse.find? (fun p => p.1 == k) with
  | some p => some p.2
  | none => none

/-- Strict equality of a read property with a string literal: false for a
missing field and for any non-string value. -/
def isStrVal (j : Option Json) (s : List Char) : Bool :=
  match j with
  | some (Json.str t) => t == s
  | _ => false

/-- The required field names, in the order checked by the source. -/
def requiredFields : List (List Char) :=
  ["title".toList, "description".toList, "tags".toList, "defaultLanguage".toList,
   "defaultAudioLanguage".toList, "categoryId".toList]

/-- The distinct throw sites of the metadata check in SectionCard. -/
inductive MetaError where
  | noJson
  | invalidJson
  | missingField (name : List Char)
  | inOperatorTypeError
  | badAudioLang
  | badLang
deriving DecidableEq, Repr

/-- The e.message text reaching the catch at each deterministic throw
site.  For invalidJson the engine supplies its own parse-error text and
the string below is the code's fallback for a message-less error; for
inOperatorTypeError the engine text is likewise engine specific. -/
def MetaError.message : MetaError → List Char
  | .noJson => "Could not find JSON object.".toList
  | .invalidJson => "Invalid JSON".toList
  | .missingField k => "Missing field: ".toList ++ k
  | .inOperatorTypeError => "Invalid JSON".toList
  | .badAudioLang => "defaultAudioLanguage must be \x27en-US\x27".toList
  | .badLang => "defaultLanguage must be \x27en\x27".toList

/-- The metadata validation of SectionCard applied to a section content:
clean the fences and trim, locate the braces, parse, check the required
fields in order, then the audio language, then the language.  Returns
none on success and the failure kind otherwise. -/
def validateMetadata (content : List Char) : Option MetaError :=
  match metaJsonSlice content with
  | none => some MetaError.noJson
  | some raw =>
    match jsonParse raw with
    | none => some MetaError.invalidJson
    | some (Json.obj fields) =>
      (match firstAbsent fields requiredFields with
       | some k => some (MetaError.missingField k)
       | none =>
         if !(isStrVal (getField fields ("defaultAudioLanguage".toList)) ("en-US".toList))
         then some MetaError.badAudioLang
         else if !(isStrVal (getField fields ("defaultLanguage".toList)) ("en".toList))
         then some MetaError.badLang
         else none)
    | some (Json.arr _) => some (MetaError.missingField ("title".toList))
    | some _ => some MetaError.inOperatorTypeError

/-- The parse stage of extractMetadataJson in UI.tsx: same cleaning,
brace location and JSON.parse; none on any failure.  The final
JSON.stringify re-rendering is display glue and not modelled. -/
def extractMetadataJson (content : List Char) : Option Json :=
  match metaJsonSlice content with
  | some raw => jsonParse raw
  | none => none

/-- Join chunks back with the newline separators consumed by the split. -/
def joinNl : List (List Char) → List Char
  | [] => []
  | [p] => p
  | p :: q :: ps => p ++ '\n' :: joinNl (q :: ps)

/-- The right-trim half of String.prototype.trim. -/
def rdropWs (l : List Char) : List Char := (l.reverse.dropWhile isJsWhitespace).reverse

/-- The backtick character of the fence markers (code point 96). -/
def backtick : Char := Char.ofNat 96

/-- The fenced metadata content of the spec's test property: a json fence
line, the metadata object on one line, and a closing fence line. -/
def fencedMetaContent : List Char :=
  "```json\n\x7b\"title\":\"x\",\"description\":\"y\",\"tags\":[\"a\"],\"defaultLanguage\":\"en\",\"defaultAudioLanguage\":\"en-US\",\"categoryId\":\"27\"\x7d\n```".toList

/-- The JSON object embedded in fencedMetaContent. -/
def expectedMetaJson : Json :=
  Json.obj [("title".toList, Json.str "x".toList),
            ("description".toList, Json.str "y".toList),
            ("tags".toList, Json.arr [Json.str "a".toList]),
            ("defaultLanguage".toList, Json.str "en".toList),
            ("defaultAudioLanguage".toList, Json.str "en-US".toList),
            ("categoryId".toList, Json.str "27".toList)]

end YTO

namespace YTO

theorem consHead_ne_nil (c : Char) (l : List (List Char)) : consHead c l ≠ [] := by
  cases l <;> simp [consHead]

theorem splitParts_ne_nil (s : List Char) : splitParts s ≠ [] := by
  induction s with
  | nil => simp [splitParts]
  | cons c rest ih =>
    by_cases h : c = '\n' ∧ isSplitAt rest = true
    · rw [splitParts, if_pos h]; simp
    · rw [splitParts, if_neg h]; exact consHead_ne_nil c (splitParts rest)

theorem splitParts_cons (c : Char) (rest : List Char) :
    splitParts (c :: rest) =
      if c = '\n' ∧ isSplitAt rest = true then [] :: splitParts rest
      else consHead c (splitParts rest) := rfl

theorem splitParts_head_ex (s : List Char) : ∃ p ps, splitParts s = p :: ps := by
  cases hs : splitParts s with
  | nil => exact absurd hs (splitParts_ne_nil s)
  | cons p ps => exact ⟨p, ps, rfl⟩

theorem joinNl_cons (p : List Char) (l : List (List Char)) (h : l ≠ []) :
    joinNl (p :: l) = p ++ '\n' :: joinNl l := by
  cases l with
  | nil => exact absurd rfl h
  | cons q ps => rfl

theorem joinNl_consHead (c : Char) (l : List (List Char)) (h : l ≠ []) :
    joinNl (consHead c l) = c :: joinNl l := by
  cases l with
  | nil => exact absurd rfl h
  | cons p ps =>
    cases ps with
    | nil => rfl
    | cons q qs => rfl

theorem joinNl_splitParts (s : List Char) : joinNl (splitParts s) = s := by
  induction s with
  | nil => rfl
  | cons c rest ih =>
    rw [splitParts_cons]
    by_cases h : c = '\n' ∧ isSplitAt rest = true
    · rw [if_pos h, joinNl_cons _ _ (splitParts_ne_nil rest), ih, h.1]
      rfl
    · rw [if_neg h, joinNl_consHead _ _ (splitParts_ne_nil rest), ih]

theorem splitParts_head_prefix : ∀ (s p : List Char) (ps : List (List Char)),
    splitParts s = p :: ps → ∃ t, p ++ t = s := by
  intro s
  induction s with
  | nil =>
    intro p ps h
    simp only [splitParts] at h
    injection h with h1 h2
    exact ⟨[], by rw [← h1]; rfl⟩
  | cons c rest ih =>
    intro p ps h
    rw [splitParts_cons] at h
    by_cases hc : c = '\n' ∧ isSplitAt rest = true
    · rw [if_pos hc] at h
      injection h with h1 h2
      exact ⟨c :: rest, by rw [← h1]; rfl⟩
    · rw [if_neg hc] at h
      obtain ⟨q, qs, hq⟩ := splitParts_head_ex rest
      rw [hq] at h
      simp only [consHead] at h
      injection h with h1 h2
      obtain ⟨t, ht⟩ := ih q qs hq
      exact ⟨t, by rw [← h1]; simp [ht]⟩

theorem isSplitAt_iff {s : List Char} :
    isSplitAt s = true ↔
      ∃ c t, s = '#' :: '#' :: '#' :: c :: t ∧ isJsWhitespace c = true := by
  constructor
  · intro h
    unfold isSplitAt at h
    rw [Bool.and_eq_true, decide_eq_true_iff] at h
    obtain ⟨h1, h2⟩ := h
    cases hd : s.drop 3 with
    | nil => rw [hd] at h2; exact absurd h2 (by decide)
    | cons c t =>
      refine ⟨c, t, ?_, by rw [hd] at h2; simpa using h2⟩
      have htd : s.take 3 ++ s.drop 3 = s := List.take_append_drop 3 s
      rw [h1, hd] at htd
      exact htd.symm
  · rintro ⟨c, t, rfl, hw⟩
    unfold isSplitAt
    simp [hw]

theorem isSplitAt_of_prefix {p t s : List Char} (hpt : p ++ t = s)
    (hp : isSplitAt p = true) : isSplitAt s = true := by
  obtain ⟨c, u, rfl, hw⟩ := isSplitAt_iff.mp hp
  subst hpt
  exact isSplitAt_iff.mpr ⟨c, u ++ t, by simp, hw⟩

theorem splitParts_hash3 (t : List Char) :
    ∃ q qs, splitParts ('#' :: '#' :: '#' :: t) = ('#' :: '#' :: '#' :: q) :: qs ∧
      splitParts t = q :: qs := by
  obtain ⟨q, qs, hq⟩ := splitParts_head_ex t
  refine ⟨q, qs, ?_, hq⟩
  rw [splitParts_cons, if_neg (fun h => absurd h.1 (by decide)),
      splitParts_cons, if_neg (fun h => absurd h.1 (by decide)),
      splitParts_cons, if_neg (fun h => absurd h.1 (by decide)), hq]
  rfl

theorem splitParts_parts_hash_aux : ∀ (n : Nat) (s : List Char), s.length ≤ n →
    (∀ p ∈ (splitParts s).tail, p.take 3 = ['#', '#', '#']) ∧
    (isSplitAt s = true → ∀ p ∈ splitParts s, p.take 3 = ['#', '#', '#']) := by
  intro n
  induction n with
  | zero =>
    intro s hs
    have : s = [] := List.eq_nil_of_length_eq_zero (Nat.le_zero.mp hs)
    subst this
    constructor
    · intro p hp; simp [splitParts] at hp
    · intro h; exact absurd h (by decide)
  | succ n ih =>
    intro s hs
    constructor
    · cases s with
      | nil => intro p hp; simp [splitParts] at hp
      | cons c rest =>
        rw [splitParts_cons]
        by_cases hc : c = '\n' ∧ isSplitAt rest = true
        · rw [if_pos hc]
          simp only [List.tail_cons]
          exact (ih rest (by simp at hs; omega)).2 hc.2
        · rw [if_neg hc]
          obtain ⟨q, qs, hq⟩ := splitParts_head_ex rest
          rw [hq]
          simp only [consHead, List.tail_cons]
          intro p hp
          have hm := (ih rest (by simp at hs; omega)).1
          rw [hq] at hm
          exact hm p (by simpa using hp)
    · intro hsp
      obtain ⟨c0, t, rfl, hw⟩ := isSplitAt_iff.mp hsp
      obtain ⟨q, qs, hq, hq2⟩ := splitParts_hash3 (c0 :: t)
      rw [hq]
      intro p hp
      rcases List.mem_cons.mp hp with h | h
      · subst h; rfl
      · have hm := (ih (c0 :: t) (by simp at hs ⊢; omega)).1
        rw [hq2] at hm
        exact hm p (by simpa using h)

theorem splitParts_tail_hash (s : List Char) :
    ∀ p ∈ (splitParts s).tail, p.take 3 = ['#', '#', '#'] :=
  (splitParts_parts_hash_aux s.length s le_rfl).1

theorem splitParts_no_internal : ∀ (s : List Char), ∀ p ∈ splitParts s,
    ∀ a b, p = a ++ '\n' :: b → isSplitAt b = false := by
  intro s
  induction s with
  | nil =>
    intro p hp a b hab
    simp [splitParts] at hp
    subst hp
    exact absurd hab (by simp)
  | cons c rest ih =>
    intro p hp a b hab
    rw [splitParts_cons] at hp
    by_cases hc : c = '\n' ∧ isSplitAt rest = true
    · rw [if_pos hc] at hp
      rcases List.mem_cons.mp hp with h | h
      · subst h; exact absurd hab (by simp)
      · exact ih p h a b hab
    · rw [if_neg hc] at hp
      obtain ⟨q, qs, hq⟩ := splitParts_head_ex rest
      rw [hq] at hp
      simp only [consHead] at hp
      rcases List.mem_cons.mp hp with h | h
      · subst h
        cases a with
        | nil =>
          simp only [List.nil_append] at hab
          injection hab with h1 h2
          subst h2
          by_contra hb
          rw [Bool.not_eq_false] at hb
          obtain ⟨t, ht⟩ := splitParts_head_prefix rest q qs hq
          exact absurd ⟨h1, isSplitAt_of_prefix ht hb⟩ hc
        | cons a0 a' =>
          simp only [List.cons_append] at hab
          injection hab with h1 h2
          exact ih q (by rw [hq]; simp) a' b h2
      · exact ih p (by rw [hq]; simp [h]) a b hab

end YTO

namespace YTO

theorem dropWhile_head_not_ws : ∀ (l : List Char) (c : Char) (t : List Char),
    l.dropWhile isJsWhitespace = c :: t → isJsWhitespace c = false := by
  intro l
  induction l with
  | nil => intro c t h; simp at h
  | cons a l ih =>
    intro c t h
    by_cases ha : isJsWhitespace a
    · rw [List.dropWhile_cons_of_pos ha] at h
      exact ih c t h
    · rw [List.dropWhile_cons_of_neg ha] at h
      injection h with h1 h2
      subst h1
      exact Bool.eq_false_iff.mpr ha

theorem dropWhile_ws_idem (l : List Char) :
    (l.dropWhile isJsWhitespace).dropWhile isJsWhitespace = l.dropWhile isJsWhitespace := by
  cases h : l.dropWhile isJsWhitespace with
  | nil => rfl
  | cons c t =>
    have := dropWhile_head_not_ws l c t h
    exact List.dropWhile_cons_of_neg (by rw [this]; exact Bool.false_ne_true)

theorem trimList_eq_rdrop (s : List Char) :
    trimList s = rdropWs (s.dropWhile isJsWhitespace) := rfl

theorem rdropWs_prefix (l : List Char) : ∃ t, rdropWs l ++ t = l := by
  have h : ∃ u, u ++ l.reverse.dropWhile isJsWhitespace = l.reverse := by
    induction l.reverse with
    | nil => exact ⟨[], rfl⟩
    | cons a m ih =>
      by_cases ha : isJsWhitespace a
      · obtain ⟨u, hu⟩ := ih
        rw [List.dropWhile_cons_of_pos ha]
        exact ⟨a :: u, by rw [List.cons_append, hu]⟩
      · rw [List.dropWhile_cons_of_neg ha]
        exact ⟨[], rfl⟩
  obtain ⟨u, hu⟩ := h
  refine ⟨u.reverse, ?_⟩
  have := congrArg List.reverse hu
  rw [List.reverse_append] at this
  simpa [rdropWs] using this

theorem rdropWs_idem (l : List Char) : rdropWs (rdropWs l) = rdropWs l := by
  unfold rdropWs
  rw [List.reverse_reverse, dropWhile_ws_idem]

theorem trimList_idem (s : List Char) : trimList (trimList s) = trimList s := by
  rw [trimList_eq_rdrop s, trimList_eq_rdrop]
  cases h : rdropWs (s.dropWhile isJsWhitespace) with
  | nil => rfl
  | cons c t =>
    have hpre : ∃ t', s.dropWhile isJsWhitespace = c :: t' := by
      obtain ⟨u, hu⟩ := rdropWs_prefix (s.dropWhile isJsWhitespace)
      rw [h] at hu
      exact ⟨t ++ u, hu.symm⟩
    obtain ⟨t', ht'⟩ := hpre
    have hc : isJsWhitespace c = false := dropWhile_head_not_ws s c t' ht'
    rw [List.dropWhile_cons_of_neg (by rw [hc]; exact Bool.false_ne_true), ← h, rdropWs_idem]

theorem trimList_eq_self {l : List Char}
    (h1 : ∀ c, l.head? = some c → isJsWhitespace c = false)
    (h2 : ∀ c, l.getLast? = some c → isJsWhitespace c = false) :
    trimList l = l := by
  unfold trimList
  cases l with
  | nil => rfl
  | cons c t =>
    have hc : isJsWhitespace c = false := h1 c rfl
    rw [List.dropWhile_cons_of_neg (by rw [hc]; exact Bool.false_ne_true)]
    cases hr : (c :: t).reverse with
    | nil => simp at hr
    | cons d u =>
      have hd : (c :: t).getLast? = some d := by
        rw [← List.head?_reverse, hr]; rfl
      have hdw : isJsWhitespace d = false := h2 d hd
      rw [List.dropWhile_cons_of_neg (by rw [hdw]; exact Bool.false_ne_true), ← hr,
        List.reverse_reverse]

theorem digitChar_not_ws (d : Nat) (hd : d < 10) :
    isJsWhitespace (digitChar d) = false := by
  interval_cases d <;> decide

theorem natToCharsGo_spec : ∀ (f n : Nat) (acc : List Char), 0 < f →
    ∃ l, natToCharsGo f n acc = l ++ acc ∧ l ≠ [] ∧
      ∀ c ∈ l, isJsWhitespace c = false := by
  intro f
  induction f with
  | zero => intro n acc h; omega
  | succ f ih =>
    intro n acc _
    simp only [natToCharsGo]
    by_cases hn : n < 10
    · rw [if_pos hn]
      refine ⟨[digitChar n], rfl, by simp, ?_⟩
      intro c hc
      rw [List.mem_singleton] at hc
      subst hc
      exact digitChar_not_ws n hn
    · rw [if_neg hn]
      cases f with
      | zero =>
        refine ⟨[digitChar (n % 10)], rfl, by simp, ?_⟩
        intro c hc
        rw [List.mem_singleton] at hc
        subst hc
        exact digitChar_not_ws _ (Nat.mod_lt n (by omega))
      | succ f' =>
        obtain ⟨l, hl, hne, hws⟩ := ih (n / 10) (digitChar (n % 10) :: acc) (Nat.succ_pos f')
        refine ⟨l ++ [digitChar (n % 10)], by rw [hl]; simp, by simp, ?_⟩
        intro c hc
        rcases List.mem_append.mp hc with h | h
        · exact hws c h
        · rw [List.mem_singleton] at h
          subst h
          exact digitChar_not_ws _ (Nat.mod_lt n (by omega))

theorem natToChars_spec (n : Nat) :
    natToChars n ≠ [] ∧ ∀ c ∈ natToChars n, isJsWhitespace c = false := by
  obtain ⟨l, hl, hne, hws⟩ := natToCharsGo_spec (n + 1) n [] (Nat.succ_pos n)
  unfold natToChars
  rw [hl, List.append_nil]
  exact ⟨hne, hws⟩

theorem sectionPlaceholder_ne_nil (n : Nat) : sectionPlaceholder n ≠ [] := by
  unfold sectionPlaceholder
  simp

theorem trimList_sectionPlaceholder (n : Nat) :
    trimList (sectionPlaceholder n) = sectionPlaceholder n := by
  apply trimList_eq_self
  · intro c hc
    have : sectionPlaceholder n = 'S' :: ("ection ".toList ++ natToChars n) := rfl
    rw [this] at hc
    injection hc with hc
    subst hc
    decide
  · intro c hc
    obtain ⟨hne, hws⟩ := natToChars_spec n
    unfold sectionPlaceholder at hc
    cases hd : (natToChars n).getLast? with
    | none =>
      cases hl : natToChars n with
      | nil => exact absurd hl hne
      | cons a m => rw [hl] at hd; simp [List.getLast?_eq_getElem?] at hd
    | some d =>
      have : ("Section ".toList ++ natToChars n).getLast? = some d := by
        cases hl : natToChars n with
        | nil => exact absurd hl hne
        | cons a m =>
          rw [hl] at hd
          rw [List.getLast?_append, hd]
          rfl
      rw [this] at hc
      injection hc with hc
      subst hc
      exact hws _ (List.mem_of_getLast?_eq_some hd)

end YTO

namespace YTO

theorem mkSection_heading {idx : Nat} {chunk : List Char}
    (hh : chunk.take 4 = "### ".toList) :
    mkSection idx chunk =
      some ⟨if trimList (beforeNl (chunk.drop 4)) = [] then sectionPlaceholder (idx + 1)
            else trimList (beforeNl (chunk.drop 4)),
            headingContent chunk⟩ := by
  unfold mkSection
  rw [if_pos hh]

theorem mkSection_overview {idx : Nat} {chunk : List Char}
    (hh : chunk.take 4 ≠ "### ".toList) (hb : trimList chunk ≠ []) :
    mkSection idx chunk = some ⟨"Overview".toList, trimList chunk⟩ := by
  unfold mkSection
  rw [if_neg hh, if_neg hb]

theorem mkSection_blank {idx : Nat} {chunk : List Char}
    (hh : chunk.take 4 ≠ "### ".toList) (hb : trimList chunk = []) :
    mkSection idx chunk = none := by
  unfold mkSection
  rw [if_neg hh, if_pos hb]

theorem buildSections_cons (idx : Nat) (chunk : List Char) (rest : List (List Char)) :
    buildSections idx (chunk :: rest) =
      match mkSection idx chunk with
      | some sec => sec :: buildSections (idx + 1) rest
      | none => buildSections (idx + 1) rest := rfl

theorem mem_buildSections : ∀ (chunks : List (List Char)) (k : Nat) (sec : Section),
    sec ∈ buildSections k chunks → ∃ i chunk, mkSection i chunk = some sec := by
  intro chunks
  induction chunks with
  | nil => intro k sec h; simp [buildSections] at h
  | cons chunk rest ih =>
    intro k sec h
    rw [buildSections_cons] at h
    cases hm : mkSection k chunk with
    | some s0 =>
      rw [hm] at h
      rcases List.mem_cons.mp h with h | h
      · exact ⟨k, chunk, by rw [hm, h]⟩
      · exact ih (k + 1) sec h
    | none =>
      rw [hm] at h
      exact ih (k + 1) sec h

theorem buildSections_mem_of_get : ∀ (chunks : List (List Char)) (k i : Nat)
    (chunk : List Char) (sec : Section),
    chunks[i]? = some chunk → mkSection (k + i) chunk = some sec →
    sec ∈ buildSections k chunks := by
  intro chunks
  induction chunks with
  | nil => intro k i chunk sec h hm; simp at h
  | cons c0 rest ih =>
    intro k i chunk sec h hm
    cases i with
    | zero =>
      rw [List.getElem?_cons_zero] at h
      injection h with h
      subst h
      rw [Nat.add_zero] at hm
      rw [buildSections_cons, hm]
      exact List.mem_cons_self _ _
    | succ i' =>
      rw [List.getElem?_cons_succ] at h
      have hrec := ih (k + 1) i' chunk sec h (by rw [← hm]; congr 1; omega)
      rw [buildSections_cons]
      cases hm0 : mkSection k c0 with
      | some s0 => exact List.mem_cons_of_mem _ hrec
      | none => exact hrec

theorem mkSection_invariant (idx : Nat) (chunk : List Char) (sec : Section)
    (h : mkSection idx chunk = some sec) :
    sec.title ≠ [] ∧ trimList sec.title = sec.title ∧
      trimList sec.content = sec.content := by
  by_cases hh : chunk.take 4 = "### ".toList
  · rw [mkSection_heading hh] at h
    injection h with h
    subst h
    refine ⟨?_, ?_, ?_⟩
    · show (if trimList (beforeNl (chunk.drop 4)) = [] then sectionPlaceholder (idx + 1)
            else trimList (beforeNl (chunk.drop 4))) ≠ []
      by_cases ht : trimList (beforeNl (chunk.drop 4)) = []
      · rw [if_pos ht]; exact sectionPlaceholder_ne_nil _
      · rw [if_neg ht]; exact ht
    · show trimList (if trimList (beforeNl (chunk.drop 4)) = [] then sectionPlaceholder (idx + 1)
            else trimList (beforeNl (chunk.drop 4))) = _
      by_cases ht : trimList (beforeNl (chunk.drop 4)) = []
      · rw [if_pos ht]; exact trimList_sectionPlaceholder _
      · rw [if_neg ht]; exact trimList_idem _
    · show trimList (headingContent chunk) = headingContent chunk
      unfold headingContent
      cases afterNl chunk with
      | some r => exact trimList_idem r
      | none => rfl
  · by_cases hb : trimList chunk = []
    · rw [mkSection_blank hh hb] at h
      exact absurd h (by simp)
    · rw [mkSection_overview hh hb] at h
      injection h with h
      subst h
      refine ⟨?_, ?_, trimList_idem chunk⟩
      · show "Overview".toList ≠ []
        decide
      · show trimList ("Overview".toList) = "Overview".toList
        decide

theorem parseSections_eq (s : List Char) (h : trimList s ≠ []) :
    parseSections s =
      (buildSections 0 (splitParts (normalizeNewlines s))).filter keepSection := by
  unfold parseSections
  rw [if_neg h]

theorem parseSections_blank (s : List Char) (h : trimList s = []) :
    parseSections s = [] := by
  unfold parseSections
  rw [if_pos h]

theorem keepSection_of_title_ne_nil {sec : Section} (h : sec.title ≠ []) :
    keepSection sec = true := by
  unfold keepSection
  cases ht : sec.title with
  | nil => exact absurd ht h
  | cons a t => rfl

end YTO

namespace YTO

/-- C1: parseSections is total — every input string yields a (possibly
empty) list of sections — and every input that is empty or consists only
of whitespace yields the empty sequence; in particular the empty string
and a blank string both parse to the empty sequence. -/
theorem c1_parse_total_and_blank :
    (∀ s : List Char, ∃ secs, parseSections s = secs) ∧
    (∀ s : List Char, trimList s = [] → parseSections s = []) ∧
    parseSections "".toList = [] ∧ parseSections "   ".toList = [] := by
  refine ⟨fun s => ⟨parseSections s, rfl⟩, fun s h => parseSections_blank s h,
    by decide, by decide⟩

/-- C1 witness: the blank-input clause applied to a concrete whitespace
string. -/
theorem c1_witness : parseSections "  \t ".toList = [] :=
  c1_parse_total_and_blank.2.1 ("  \t ".toList) (by decide)

/-- C2: parseSections splits exactly before heading lines.  The two
concrete examples of the claim hold; in general the split chunks join
back to the input with one newline per boundary (so the heading marker is
never consumed into the previous chunk), every chunk after the first
starts with the three hash characters of the heading marker, and no chunk
contains an interior newline followed by a heading marker (so the text is
split at every point immediately before a heading line, and only at line
starts). -/
theorem c2_split_at_headings :
    parseSections "### Title\nA\n### Tags\nB".toList =
      [⟨"Title".toList, "A".toList⟩, ⟨"Tags".toList, "B".toList⟩] ∧
    parseSections "### Title\n### Tags\nB".toList =
      [⟨"Title".toList, "".toList⟩, ⟨"Tags".toList, "B".toList⟩] ∧
    (∀ s : List Char, joinNl (splitParts s) = s) ∧
    (∀ s : List Char, ∀ p ∈ (splitParts s).tail, p.take 3 = ['#', '#', '#']) ∧
    (∀ s : List Char, ∀ p ∈ splitParts s, ∀ a b, p = a ++ '\n' :: b →
      isSplitAt b = false) :=
  ⟨by decide, by decide, joinNl_splitParts, splitParts_tail_hash, splitParts_no_internal⟩

/-- C2 witness: the general split clauses applied at a concrete input. -/
theorem c2_witness :
    joinNl (splitParts "x\n### y".toList) = "x\n### y".toList ∧
    ("### y".toList).take 3 = ['#', '#', '#'] ∧
    isSplitAt "y".toList = false :=
  ⟨c2_split_at_headings.2.2.1 _,
   c2_split_at_headings.2.2.2.1 ("x\n### y".toList) ("### y".toList) (by decide),
   c2_split_at_headings.2.2.2.2 ("x\ny".toList) ("x\ny".toList) (by decide)
     "x".toList "y".toList (by decide)⟩

/-- C5: the concrete example of the claim holds, and in general a
non-blank first chunk that does not start with the heading marker is
emitted as a leading synthetic section titled Overview whose content is
the entire trimmed chunk, followed by the sections built from the
remaining chunks in source order, while a blank first chunk is dropped. -/
theorem c5_overview_prefix :
    parseSections "Intro text\n### Title\nA".toList =
      [⟨"Overview".toList, "Intro text".toList⟩, ⟨"Title".toList, "A".toList⟩] ∧
    (∀ (s c0 : List Char) (rest : List (List Char)),
      trimList s ≠ [] →
      splitParts (normalizeNewlines s) = c0 :: rest →
      c0.take 4 ≠ "### ".toList →
      trimList c0 ≠ [] →
      parseSections s =
        (⟨"Overview".toList, trimList c0⟩ : Section) ::
          (buildSections 1 rest).filter keepSection) ∧
    (∀ (s c0 : List Char) (rest : List (List Char)),
      trimList s ≠ [] →
      splitParts (normalizeNewlines s) = c0 :: rest →
      c0.take 4 ≠ "### ".toList →
      trimList c0 = [] →
      parseSections s = (buildSections 1 rest).filter keepSection) := by
  refine ⟨by decide, ?_, ?_⟩
  · intro s c0 rest hnb hsplit hnh hnbc
    have hb : buildSections 0 (c0 :: rest) =
        (⟨"Overview".toList, trimList c0⟩ : Section) :: buildSections 1 rest := by
      rw [buildSections_cons, mkSection_overview hnh hnbc]
    have hov : ("Overview".toList : List Char) ≠ [] := by decide
    rw [parseSections_eq s hnb, hsplit, hb,
      List.filter_cons_of_pos (keepSection_of_title_ne_nil hov)]
  · intro s c0 rest hnb hsplit hnh hbc
    have hb : buildSections 0 (c0 :: rest) = buildSections 1 rest := by
      rw [buildSections_cons, mkSection_blank hnh hbc]
    rw [parseSections_eq s hnb, hsplit, hb]

/-- C5 witness: the Overview clause applied at the claim's example. -/
theorem c5_witness :
    parseSections "Intro text\n### Title\nA".toList =
      (⟨"Overview".toList, trimList "Intro text".toList⟩ : Section) ::
        (buildSections 1 ["### Title\nA".toList]).filter keepSection :=
  c5_overview_prefix.2.1 ("Intro text\n### Title\nA".toList) ("Intro text".toList)
    ["### Title\nA".toList] (by decide) (by decide) (by decide) (by decide)

/-- C9: every section in the output of parseSections has a non-empty
title, and both its title and its content equal their own trimmed forms;
this holds for every input string. -/
theorem c9_sections_trimmed (s : List Char) (sec : Section)
    (h : sec ∈ parseSections s) :
    sec.title ≠ [] ∧ trimList sec.title = sec.title ∧
      trimList sec.content = sec.content := by
  by_cases hnb : trimList s = []
  · rw [parseSections_blank s hnb] at h
    exact absurd h (List.not_mem_nil sec)
  · rw [parseSections_eq s hnb] at h
    obtain ⟨i, chunk, hm⟩ := mem_buildSections _ 0 sec (List.mem_filter.mp h).1
    exact mkSection_invariant i chunk sec hm

/-- C9 witness: the invariant applied to a concrete parsed section. -/
theorem c9_witness :
    ("T".toList ≠ [] ∧ trimList "T".toList = "T".toList ∧
      trimList "A".toList = "A".toList) :=
  c9_sections_trimmed ("### T\nA".toList) ⟨"T".toList, "A".toList⟩ (by decide)

/-- C10: for the input below, a line of three hashes followed by a tab
starts a new chunk (the split lookahead accepts any whitespace after the
hashes) but is not a heading chunk, so it is emitted as a section titled
Overview whose content keeps the hash characters — Overview sections
appear after the first position and more than once. -/
theorem c10_overview_after_first :
    splitParts (normalizeNewlines "Intro\n###\tX\n###\tY".toList) =
      ["Intro".toList, "###\tX".toList, "###\tY".toList] ∧
    parseSections "Intro\n###\tX\n###\tY".toList =
      [⟨"Overview".toList, "Intro".toList⟩,
       ⟨"Overview".toList, "###\tX".toList⟩,
       ⟨"Overview".toList, "###\tY".toList⟩] :=
  ⟨by decide, by decide⟩

/-- C7 counterexample: on this input the blank text before the heading is
dropped, the produced sequence has the empty-titled heading section at
first position, yet its placeholder title is Section 2 (the chunk index),
not Section 1 (the position within the produced sequence) as the claim
states. -/
theorem c7_counterexample :
    parseSections "   \n### \nB".toList = [⟨"Section 2".toList, "B".toList⟩] ∧
    "Section 2".toList ≠ "Section 1".toList :=
  ⟨by decide, by decide⟩

/-- C7 amended: when a heading chunk's would-be title is empty after
trimming, the produced section carries the placeholder Section (i+1)
where i is the chunk's zero-based position in the split chunk list — the
one-based chunk index, which matches the position within the produced
sequence only when no blank pre-heading chunk was dropped. -/
theorem c7_amended (s : List Char) (i : Nat) (chunk : List Char)
    (hnb : trimList s ≠ [])
    (hc : (splitParts (normalizeNewlines s))[i]? = some chunk)
    (hh : chunk.take 4 = "### ".toList)
    (ht : trimList (beforeNl (chunk.drop 4)) = []) :
    (⟨sectionPlaceholder (i + 1), headingContent chunk⟩ : Section) ∈ parseSections s := by
  rw [parseSections_eq s hnb]
  apply List.mem_filter.mpr
  refine ⟨?_, keepSection_of_title_ne_nil (sectionPlaceholder_ne_nil (i + 1))⟩
  apply buildSections_mem_of_get _ 0 i chunk _ hc
  rw [Nat.zero_add, mkSection_heading hh, ht, if_pos rfl]

/-- C7 amended witness: the amended clause applied at a concrete input
whose first chunk is the heading chunk. -/
theorem c7_amended_witness :
    (⟨sectionPlaceholder 1, headingContent "### \nB".toList⟩ : Section) ∈
      parseSections "### \nB".toList := by
  have := c7_amended ("### \nB".toList) 0 ("### \nB".toList)
    (by decide) (by decide) (by decide) (by decide)
  exact this

end YTO

namespace YTO

theorem mem_of_contains {l : List (List Char)} {a : List Char}
    (h : l.contains a = true) : a ∈ l := List.elem_iff.mp h

theorem contains_of_mem {l : List (List Char)} {a : List Char}
    (h : a ∈ l) : l.contains a = true := List.elem_iff.mpr h

theorem contains_eq_false_of_not_mem {l : List (List Char)} {a : List Char}
    (h : a ∉ l) : l.contains a = false := by
  rw [Bool.eq_false_iff]
  intro hc
  exact h (mem_of_contains hc)

/-- C4: a required name is marked present iff some section's title equals
it under the trimmed, ASCII-lowercased comparison; the mark of each name
is unchanged under permutation of the required names and under appending
a duplicate section; and a section titled " title " (with spaces)
satisfies the required name "Title". -/
theorem c4_check_required :
    (∀ (sections : List Section) (required : List (List Char)) (name : List Char),
      ((name, true) ∈ checkRequiredSections sections required ↔
        name ∈ required ∧ ∃ sec ∈ sections, titleKey sec = toLowerList name)) ∧
    (∀ (sections : List Section) (req1 req2 : List (List Char)),
      req1.Perm req2 →
      (checkRequiredSections sections req1).Perm (checkRequiredSections sections req2)) ∧
    (∀ (sections : List Section) (sec : Section) (required : List (List Char)),
      sec ∈ sections →
      checkRequiredSections (sections ++ [sec]) required =
        checkRequiredSections sections required) ∧
    checkRequiredSections [⟨" title ".toList, []⟩] ["Title".toList] =
      [("Title".toList, true)] := by
  refine ⟨?_, ?_, ?_, by decide⟩
  · intro sections required name
    unfold checkRequiredSections
    simp only [List.mem_map]
    constructor
    · rintro ⟨n, hn, heq⟩
      rw [Prod.mk.injEq] at heq
      obtain ⟨h1, h2⟩ := heq
      subst h1
      refine ⟨hn, ?_⟩
      obtain ⟨sec, hsec, hk⟩ := List.mem_map.mp (mem_of_contains h2)
      exact ⟨sec, hsec, hk⟩
    · rintro ⟨hname, sec, hsec, hk⟩
      refine ⟨name, hname, ?_⟩
      rw [Prod.mk.injEq]
      exact ⟨rfl, contains_of_mem (List.mem_map.mpr ⟨sec, hsec, hk⟩)⟩
  · intro sections req1 req2 h
    exact h.map _
  · intro sections sec required hsec
    unfold checkRequiredSections
    refine List.map_congr_left (fun name _ => ?_)
    have hkey : ((sections ++ [sec]).map titleKey).contains (toLowerList name) =
        (sections.map titleKey).contains (toLowerList name) := by
      by_cases hx : toLowerList name ∈ sections.map titleKey
      · rw [contains_of_mem hx, contains_of_mem (by rw [List.map_append]; exact List.mem_append_left _ hx)]
      · by_cases hy : toLowerList name ∈ (sections ++ [sec]).map titleKey
        · rw [List.map_append] at hy
          rcases List.mem_append.mp hy with h | h
          · exact absurd h hx
          · rw [List.map_singleton, List.mem_singleton] at h
            exact absurd (List.mem_map.mpr ⟨sec, hsec, h.symm⟩) hx
        · rw [contains_eq_false_of_not_mem hx, contains_eq_false_of_not_mem hy]
    rw [hkey]

/-- C4 witness: the three general clauses applied at concrete inputs. -/
theorem c4_witness :
    (("title".toList, true) ∈
      checkRequiredSections [⟨"Title".toList, []⟩] ["title".toList]) ∧
    (checkRequiredSections [] ["a".toList, "b".toList]).Perm
      (checkRequiredSections [] ["b".toList, "a".toList]) ∧
    checkRequiredSections ([⟨"A".toList, []⟩] ++ [⟨"A".toList, []⟩]) ["A".toList] =
      checkRequiredSections [⟨"A".toList, []⟩] ["A".toList] :=
  ⟨(c4_check_required.1 _ _ _).mpr
     ⟨by decide, ⟨"Title".toList, []⟩, by decide, by decide⟩,
   c4_check_required.2.1 [] _ _ (by decide),
   c4_check_required.2.2.1 _ ⟨"A".toList, []⟩ _ (by decide)⟩

/-- C3 counterexample: on brace-free content the validator fails with the
no-JSON-object error, but its message is the literal "Could not find
JSON object.", not "no JSON object found" as the claim quotes it. -/
theorem c3_counterexample :
    validateMetadata "no braces here".toList = some MetaError.noJson ∧
    MetaError.message MetaError.noJson = "Could not find JSON object.".toList ∧
    "Could not find JSON object.".toList ≠ "no JSON object found".toList :=
  ⟨by decide, by decide, by decide⟩

/-- C3 amended: validateMetadata is total (never throws past the
validator); when the cleaned content lacks an open or close brace it
fails with the no-JSON-object error (message "Could not find JSON
object."); when the brace-delimited slice does not parse it fails with
the invalid-JSON error (whose displayed message is the engine's parse
detail where available, falling back to "Invalid JSON"); when the parsed
object lacks a required field it fails naming the first absent field in
the order title, description, tags, defaultLanguage,
defaultAudioLanguage, categoryId (message "Missing field: <name>"); with
all fields present, a defaultAudioLanguage other than the string en-US
fails with the audio-language error regardless of defaultLanguage, and
only after that check does a defaultLanguage other than en fail; and it
succeeds otherwise. -/
theorem c3_amended :
    (∀ content : List Char, ∃ r, validateMetadata content = r) ∧
    (∀ content : List Char,
      firstIdx '{' (cleanContent content) = none ∨
        lastIdx '}' (cleanContent content) = none →
      validateMetadata content = some MetaError.noJson) ∧
    (∀ (content raw : List Char), metaJsonSlice content = some raw →
      jsonParse raw = none →
      validateMetadata content = some MetaError.invalidJson) ∧
    (∀ (content raw : List Char) (fields : List (List Char × Json)) (k : List Char),
      metaJsonSlice content = some raw →
      jsonParse raw = some (Json.obj fields) →
      firstAbsent fields requiredFields = some k →
      validateMetadata content = some (MetaError.missingField k)) ∧
    (∀ (content raw : List Char) (fields : List (List Char × Json)),
      metaJsonSlice content = some raw →
      jsonParse raw = some (Json.obj fields) →
      firstAbsent fields requiredFields = none →
      isStrVal (getField fields ("defaultAudioLanguage".toList)) ("en-US".toList) = false →
      validateMetadata content = some MetaError.badAudioLang) ∧
    (∀ (content raw : List Char) (fields : List (List Char × Json)),
      metaJsonSlice content = some raw →
      jsonParse raw = some (Json.obj fields) →
      firstAbsent fields requiredFields = none →
      isStrVal (getField fields ("defaultAudioLanguage".toList)) ("en-US".toList) = true →
      isStrVal (getField fields ("defaultLanguage".toList)) ("en".toList) = false →
      validateMetadata content = some MetaError.badLang) ∧
    (∀ (content raw : List Char) (fields : List (List Char × Json)),
      metaJsonSlice content = some raw →
      jsonParse raw = some (Json.obj fields) →
      firstAbsent fields requiredFields = none →
      isStrVal (getField fields ("defaultAudioLanguage".toList)) ("en-US".toList) = true →
      isStrVal (getField fields ("defaultLanguage".toList)) ("en".toList) = true →
      validateMetadata content = none) := by
  refine ⟨fun content => ⟨validateMetadata content, rfl⟩, ?_, ?_, ?_, ?_, ?_, ?_⟩
  · intro content h
    have hms : metaJsonSlice content = none := by
      unfold metaJsonSlice
      rcases h with h | h
      · rw [h]
      · rw [h]
        cases firstIdx '{' (cleanContent content) <;> rfl
    unfold validateMetadata
    rw [hms]
  · intro content raw h1 h2
    unfold validateMetadata
    rw [h1]
    show (match jsonParse raw with
      | none => some MetaError.invalidJson
      | some (Json.obj fields) => _
      | some (Json.arr _) => some (MetaError.missingField ("title".toList))
      | some _ => some MetaError.inOperatorTypeError) = some MetaError.invalidJson
    rw [h2]
  · intro content raw fields k h1 h2 h3
    unfold validateMetadata
    rw [h1]
    simp only [h2, h3]
  · intro content raw fields h1 h2 h3 h4
    unfold validateMetadata
    rw [h1]
    simp only [h2, h3, h4, Bool.not_false, if_true]
  · intro content raw fields h1 h2 h3 h4 h5
    unfold validateMetadata
    rw [h1]
    simp only [h2, h3]
    rw [h4, if_neg (show ¬((!true) = true) by decide), h5,
      if_pos (show (!false) = true by decide)]
  · intro content raw fields h1 h2 h3 h4 h5
    unfold validateMetadata
    rw [h1]
    simp only [h2, h3]
    rw [h4, if_neg (show ¬((!true) = true) by decide), h5,
      if_neg (show ¬((!true) = true) by decide)]

/-- C3 witness: each clause of the amended claim applied at a concrete
content. -/
theorem c3_witness :
    validateMetadata "x".toList = some MetaError.noJson ∧
    validateMetadata "\x7b oops \x7d".toList = some MetaError.invalidJson ∧
    validateMetadata "\x7b\"title\":\"x\"\x7d".toList =
      some (MetaError.missingField ("description".toList)) ∧
    validateMetadata "\x7b\"title\":\"x\",\"description\":\"y\",\"tags\":[\"a\"],\"defaultLanguage\":\"en\",\"defaultAudioLanguage\":\"en\",\"categoryId\":\"27\"\x7d".toList =
      some MetaError.badAudioLang ∧
    validateMetadata "\x7b\"title\":\"x\",\"description\":\"y\",\"tags\":[\"a\"],\"defaultLanguage\":\"fr\",\"defaultAudioLanguage\":\"en-US\",\"categoryId\":\"27\"\x7d".toList =
      some MetaError.badLang ∧
    validateMetadata "\x7b\"title\":\"x\",\"description\":\"y\",\"tags\":[\"a\"],\"defaultLanguage\":\"en\",\"defaultAudioLanguage\":\"en-US\",\"categoryId\":\"27\"\x7d".toList =
      none := by
  refine ⟨c3_amended.2.1 _ (Or.inl (by decide)), ?_, ?_, ?_, ?_, ?_⟩
  · exact c3_amended.2.2.1 _ ("\x7b oops \x7d".toList) (by decide) (by rfl)
  · exact c3_amended.2.2.2.1 _ ("\x7b\"title\":\"x\"\x7d".toList)
      [("title".toList, Json.str "x".toList)] ("description".toList)
      (by decide) (by rfl) (by decide)
  · exact c3_amended.2.2.2.2.1 _
      ("\x7b\"title\":\"x\",\"description\":\"y\",\"tags\":[\"a\"],\"defaultLanguage\":\"en\",\"defaultAudioLanguage\":\"en\",\"categoryId\":\"27\"\x7d".toList)
      [("title".toList, Json.str "x".toList),
       ("description".toList, Json.str "y".toList),
       ("tags".toList, Json.arr [Json.str "a".toList]),
       ("defaultLanguage".toList, Json.str "en".toList),
       ("defaultAudioLanguage".toList, Json.str "en".toList),
       ("categoryId".toList, Json.str "27".toList)]
      (by decide) (by rfl) (by decide) (by decide)
  · exact c3_amended.2.2.2.2.2.1 _
      ("\x7b\"title\":\"x\",\"description\":\"y\",\"tags\":[\"a\"],\"defaultLanguage\":\"fr\",\"defaultAudioLanguage\":\"en-US\",\"categoryId\":\"27\"\x7d".toList)
      [("title".toList, Json.str "x".toList),
       ("description".toList, Json.str "y".toList),
       ("tags".toList, Json.arr [Json.str "a".toList]),
       ("defaultLanguage".toList, Json.str "fr".toList),
       ("defaultAudioLanguage".toList, Json.str "en-US".toList),
       ("categoryId".toList, Json.str "27".toList)]
      (by decide) (by rfl) (by decide) (by decide) (by decide)
  · exact c3_amended.2.2.2.2.2.2 _
      ("\x7b\"title\":\"x\",\"description\":\"y\",\"tags\":[\"a\"],\"defaultLanguage\":\"en\",\"defaultAudioLanguage\":\"en-US\",\"categoryId\":\"27\"\x7d".toList)
      [("title".toList, Json.str "x".toList),
       ("description".toList, Json.str "y".toList),
       ("tags".toList, Json.arr [Json.str "a".toList]),
       ("defaultLanguage".toList, Json.str "en".toList),
       ("defaultAudioLanguage".toList, Json.str "en-US".toList),
       ("categoryId".toList, Json.str "27".toList)]
      (by decide) (by rfl) (by decide) (by decide) (by decide)

end YTO

namespace YTO

set_option maxRecDepth 16384 in
/-- C6: on the fenced metadata block of the claim the validator succeeds,
and the parsed object exposed for extraction and export equals the
embedded JSON object unchanged. -/
theorem c6_fenced_metadata_ok :
    validateMetadata fencedMetaContent = none ∧
    extractMetadataJson fencedMetaContent = some expectedMetaJson :=
  ⟨by rfl, by rfl⟩

theorem stripFencesGo_nil (fuel : Nat) : stripFencesGo fuel [] = [] := by
  cases fuel <;> rfl

theorem stripFencesGo_passthrough : ∀ (s : List Char) (fuel : Nat),
    s.length + 4 ≤ fuel → (∀ c ∈ s, c ≠ backtick) →
    stripFencesGo fuel (s ++ "\n```".toList) = s := by
  intro s
  induction s with
  | nil =>
    intro fuel hf hc
    cases fuel with
    | zero => omega
    | succ f =>
      show stripFencesGo (f + 1) ("\n```".toList) = []
      have h1 : stripFencesGo (f + 1) ("\n```".toList) = stripFencesGo f [] := rfl
      rw [h1, stripFencesGo_nil]
  | cons c s' ih =>
    intro fuel hf hc
    cases fuel with
    | zero => simp at hf
    | succ f =>
      have hc0 : c ≠ backtick := hc c (List.mem_cons_self _ _)
      have hcs : ∀ x ∈ s', x ≠ backtick := fun x hx => hc x (List.mem_cons_of_mem _ hx)
      have hbt7 : "```json".toList = backtick :: "``json".toList := rfl
      have hbt4 : "\n```".toList = '\n' :: backtick :: "``".toList := rfl
      have hbt3 : "```".toList = backtick :: "``".toList := rfl
      have h7 : ¬((c :: (s' ++ "\n```".toList)).take 7 = "```json".toList) := by
        intro heq
        rw [hbt7, List.take_succ_cons] at heq
        injection heq with heq1 heq2
        exact hc0 heq1
      have h4 : ¬((c :: (s' ++ "\n```".toList)).take 4 = "\n```".toList) := by
        intro heq
        rw [hbt4, List.take_succ_cons] at heq
        injection heq with heq1 heq2
        cases s' with
        | nil => exact absurd heq2 (by decide)
        | cons c2 s'' =>
          rw [List.cons_append, List.take_succ_cons] at heq2
          injection heq2 with heq3 heq4
          exact hcs c2 (List.mem_cons_self _ _) heq3
      have h3 : ¬((c :: (s' ++ "\n```".toList)).take 3 = "```".toList) := by
        intro heq
        rw [hbt3, List.take_succ_cons] at heq
        injection heq with heq1 heq2
        exact hc0 heq1
      have step : stripFencesGo (f + 1) ((c :: s') ++ "\n```".toList) =
          c :: stripFencesGo f (s' ++ "\n```".toList) := by
        show (if (c :: (s' ++ "\n```".toList)).take 7 = "```json".toList then
                stripFencesGo f (dropOptNl ((c :: (s' ++ "\n```".toList)).drop 7))
              else if (c :: (s' ++ "\n```".toList)).take 4 = "\n```".toList then
                stripFencesGo f ((c :: (s' ++ "\n```".toList)).drop 4)
              else if (c :: (s' ++ "\n```".toList)).take 3 = "```".toList then
                stripFencesGo f ((c :: (s' ++ "\n```".toList)).drop 3)
              else c :: stripFencesGo f (s' ++ "\n```".toList)) =
            c :: stripFencesGo f (s' ++ "\n```".toList)
        rw [if_neg h7, if_neg h4, if_neg h3]
      rw [step, ih f (by simp at hf ⊢; omega) hcs]

/-- C8 counterexample: the fence stripping is a global replacement — an
interior fence marker is removed from the content, not preserved as the
claim states. -/
theorem c8_counterexample :
    stripFences "a```b".toList = "ab".toList ∧
    "ab".toList ≠ "a```b".toList :=
  ⟨by decide, by decide⟩

/-- C8 amended: fence stripping removes every occurrence of the fence
markers globally, wherever they occur.  A single leading json fence line
and a single trailing fence line around a backtick-free payload are
removed exactly (the claimed wrapper behaviour), but interior markers —
an interior json fence or a bare interior fence — are removed as well
rather than preserved. -/
theorem c8_amended :
    (∀ s : List Char, (∀ c ∈ s, c ≠ backtick) →
      stripFences ("```json\n".toList ++ s ++ "\n```".toList) = s) ∧
    stripFences "x```json\ny".toList = "xy".toList ∧
    stripFences "x``` mid ```y".toList = "x mid y".toList := by
  refine ⟨?_, by decide, by decide⟩
  intro s hs
  unfold stripFences
  have hlen : ("```json\n".toList ++ s ++ "\n```".toList).length = s.length + 12 := by
    simp
  rw [hlen]
  have step1 : stripFencesGo (s.length + 12) ("```json\n".toList ++ s ++ "\n```".toList) =
      stripFencesGo (s.length + 11) (s ++ "\n```".toList) := rfl
  rw [step1]
  exact stripFencesGo_passthrough s (s.length + 11) (by omega) hs

/-- C8 amended witness: the wrapper clause applied at a concrete
backtick-free payload. -/
theorem c8_amended_witness :
    stripFences ("```json\n".toList ++ "ab".toList ++ "\n```".toList) = "ab".toList :=
  c8_amended.1 ("ab".toList) (by decide)

end YTO
